import Mathlib

set_option maxRecDepth 4000

/-!
Verification development for the `resume_analyzer` repository.

Texts are modelled as `List Char`; Python machine floats (IEEE-754 binary64)
are modelled exactly by integers scaled by `2 ^ 60` together with an explicit
round-to-nearest-double function; JSON values parsed by `json.loads` are
modelled by the inductive `Json` (numbers as exact rationals); the external
model gateway is modelled by an `Except Unit Json` parameter: `Except.error ()`
stands for a raised transport error or a JSON parse failure, `Except.ok j`
for a successfully parsed reply.
-/

/-! ## Python whitespace and `str.strip` (utils/helpers.py support) -/

/-- ASCII whitespace characters recognised by Python's `str.strip()` and `\s`
(space, tab, newline, carriage return, vertical tab, form feed). -/
def pyIsSpace (c : Char) : Bool :=
  c = ' ' || c = '\t' || c = '\n' || c = '\r' || c = Char.ofNat 11 || c = Char.ofNat 12

/-- Python `str.strip()`: remove leading and trailing whitespace. -/
def pyStrip (l : List Char) : List Char :=
  (l.dropWhile pyIsSpace).rdropWhile pyIsSpace

/-! ## `clean_text` (utils/helpers.py, lines 6-31) -/

/-- `re.sub(r'\n{3,}', '\n\n', text)`: every maximal run of three or more
newlines is collapsed to exactly two newlines. -/
def collapseNL : List Char → List Char
  | c1 :: c2 :: c3 :: rest =>
    if c1 = '\n' ∧ c2 = '\n' ∧ c3 = '\n' then collapseNL (c2 :: c3 :: rest)
    else c1 :: collapseNL (c2 :: c3 :: rest)
  | l => l

/-- `re.sub(r' {2,}', ' ', text)`: every maximal run of two or more spaces is
collapsed to a single space. -/
def collapseSp : List Char → List Char
  | c1 :: c2 :: rest =>
    if c1 = ' ' ∧ c2 = ' ' then collapseSp (c2 :: rest)
    else c1 :: collapseSp (c2 :: rest)
  | l => l

/-- Helper for `splitNl`: prepend a character to the first chunk. -/
def consHead (c : Char) : List (List Char) → List (List Char)
  | [] => [[c]]
  | l :: ls => (c :: l) :: ls

/-- Python `text.split('\n')`: split on every newline, keeping empty pieces. -/
def splitNl : List Char → List (List Char)
  | [] => [[]]
  | c :: cs => if c = '\n' then [] :: splitNl cs else consHead c (splitNl cs)

/-- Python `'\n'.join(lines)`. -/
def joinNl : List (List Char) → List Char
  | [] => []
  | [l] => l
  | l :: ls => l ++ '\n' :: joinNl ls

/-- `'\n'.join(line.strip() for line in text.split('\n'))`. -/
def stripLines (l : List Char) : List Char :=
  joinNl ((splitNl l).map pyStrip)

/-- `clean_text` from utils/helpers.py: empty guard, collapse newline runs,
collapse space runs, strip every line, strip the whole text — in that order. -/
def clean_text (text : List Char) : List Char :=
  if text = [] then []
  else pyStrip (stripLines (collapseSp (collapseNL text)))

/-! ## `extract_bullet_points` (utils/helpers.py, lines 34-93) -/

/-- The bullet glyph class of the first pattern. -/
def bulletGlyphs : List Char := ['•', '-', '*', '→', '►', '●', '○', '◦', '▪', '▸']

/-- Pattern `^[\•\-\*\→\►\●\○\◦\▪\▸]\s*(.+)$` followed by `.strip()` of the
captured group. On a newline-free line the match succeeds iff a glyph is
followed by at least one character, and the stripped capture equals the
stripped remainder. -/
def matchBulletGlyph : List Char → Option (List Char)
  | c :: rest => if c ∈ bulletGlyphs ∧ rest ≠ [] then some (pyStrip rest) else none
  | [] => none

/-- Pattern `^\d+\.\s*(.+)$` followed by `.strip()` of the captured group
(ASCII digits). -/
def matchNumbered (l : List Char) : Option (List Char) :=
  match l.dropWhile Char.isDigit with
  | '.' :: rest =>
    if l.takeWhile Char.isDigit ≠ [] ∧ rest ≠ [] then some (pyStrip rest) else none
  | _ => none

/-- Pattern `^[a-z]\)\s*(.+)$` followed by `.strip()` of the captured group. -/
def matchLettered : List Char → Option (List Char)
  | a :: ')' :: rest =>
    if 'a' ≤ a ∧ a ≤ 'z' ∧ rest ≠ [] then some (pyStrip rest) else none
  | _ => none

/-- Try the three bullet patterns in source order, first match wins. -/
def tryPatterns (l : List Char) : Option (List Char) :=
  match matchBulletGlyph l with
  | some b => some b
  | none =>
    match matchNumbered l with
    | some b => some b
    | none => matchLettered l

/-- First pass of `extract_bullet_points`: pattern-matched bullets, keeping a
capture only when strictly longer than 20 characters; empty lines are skipped
before the stop check, every other line is followed by the
`len(bullets) >= max_bullets` stop check. -/
def pass1 (maxBullets : ℕ) : List (List Char) → List (List Char) → List (List Char)
  | [], acc => acc
  | line :: rest, acc =>
    let l := pyStrip line
    if l = [] then pass1 maxBullets rest acc
    else
      let acc' :=
        match tryPatterns l with
        | some b => if 20 < b.length then acc ++ [b] else acc
        | none => acc
      if maxBullets ≤ acc'.length then acc' else pass1 maxBullets rest acc'

/-- The fixed action-verb list of the fallback pass. -/
def actionVerbs : List (List Char) :=
  ["led", "managed", "developed", "created", "implemented",
   "increased", "decreased", "improved", "designed", "built",
   "achieved", "delivered", "launched", "established", "generated",
   "reduced", "streamlined", "coordinated", "executed", "analyzed",
   "spearheaded", "orchestrated", "optimized", "collaborated",
   "drove", "facilitated", "mentored", "supervised", "oversaw",
   "authored", "crafted", "engineered", "architected", "pioneered",
   "transformed", "revamped", "modernized", "automated", "integrated",
   "negotiated", "secured", "acquired", "retained", "resolved",
   "responsible", "worked", "assisted", "helped", "supported"].map String.toList

/-- ASCII model of Python `str.lower()`. -/
def pyToLower (c : Char) : Char :=
  if 'A' ≤ c ∧ c ≤ 'Z' then Char.ofNat (c.toNat + 32) else c

/-- Python `.rstrip('ed')`: drop trailing characters drawn from `{e, d}`. -/
def rstripEd (w : List Char) : List Char :=
  w.rdropWhile (fun c => c = 'e' || c = 'd')

/-- `line.split()[0].lower() if line.split() else ''`: the first
whitespace-delimited word, lowercased ([] when the line has no word). -/
def firstWordLower (l : List Char) : List Char :=
  ((l.dropWhile pyIsSpace).takeWhile (fun c => ¬ pyIsSpace c)).map pyToLower

/-- Second pass of `extract_bullet_points`: lines whose first word (as-is or
with trailing `ed` stripped) is an action verb and whose length exceeds 25;
the `len(bullets) >= max_bullets` stop check runs after every line. -/
def pass2 (maxBullets : ℕ) : List (List Char) → List (List Char) → List (List Char)
  | [], acc => acc
  | line :: rest, acc =>
    let l := pyStrip line
    let w := firstWordLower l
    let acc' :=
      if (w ∈ actionVerbs ∨ rstripEd w ∈ actionVerbs) ∧ 25 < l.length
      then acc ++ [l] else acc
    if maxBullets ≤ acc'.length then acc' else pass2 maxBullets rest acc'

/-- `extract_bullet_points` from utils/helpers.py: pattern pass, then the
action-verb fallback pass only when the first pass found nothing. -/
def extract_bullet_points (text : List Char) (maxBullets : ℕ) : List (List Char) :=
  let bullets := pass1 maxBullets (splitNl text) []
  if bullets = [] then pass2 maxBullets (splitNl text) [] else bullets

/-! ## IEEE-754 binary64 model (scaled integers)

Python floats are IEEE-754 binary64 values. Every double arising in the
`overall` computation is an exact multiple of `2 ^ (-60)`, so a double `v` is
represented by the integer `v * 2 ^ 60`, and `flScaled n d` rounds the exact
rational `n / d` to the nearest binary64 value (round-to-nearest, ties to
even), returning the scaled representation. The subnormal and overflow
regimes, far from the magnitudes appearing here (all in `[0.15, 16]`), are
flushed rather than modelled. This integer formulation was validated against
CPython on the whole `[1,10]^5` score domain. -/

/-- Fuel-driven floor of `log2` on naturals (`nlog2 fuel n = ⌊log2 n⌋` for
`1 ≤ n ≤ 2 ^ fuel`). -/
def nlog2 : ℕ → ℕ → ℕ
  | 0, _ => 0
  | fuel + 1, n => if 2 ≤ n then nlog2 fuel (n / 2) + 1 else 0

/-- Round the rational `n / d` (with `0 < d`) to the nearest integer, ties to
even. -/
def rneDiv (n : ℤ) (d : ℕ) : ℤ :=
  let q := n.ediv d
  let r := n.emod d
  if 2 * r < d then q
  else if (d : ℤ) < 2 * r then q + 1
  else if q % 2 = 0 then q else q + 1

/-- Round the positive rational `n / d` to the nearest binary64 value, scaled
by `2 ^ 60`: locate the binade `e = ⌊log2 (n / d)⌋`, round the 53-bit
significand to nearest-even, scale back. -/
def flScaledPos (n : ℤ) (d : ℕ) : ℤ :=
  let t := (n * 2 ^ 60).ediv d
  if t ≤ 0 then 0
  else
    let e : ℤ := (nlog2 t.toNat t.toNat : ℤ) - 60
    let m :=
      if 0 ≤ 52 - e then rneDiv (n * 2 ^ (52 - e).toNat) d
      else rneDiv n (d * 2 ^ (e - 52).toNat)
    if 0 ≤ e + 8 then m * 2 ^ (e + 8).toNat else rneDiv m (2 ^ (-(e + 8)).toNat)

/-- Round the rational `n / d` to the nearest binary64 value, scaled by
`2 ^ 60`. -/
def flScaled (n : ℤ) (d : ℕ) : ℤ :=
  if n = 0 then 0 else if n < 0 then -flScaledPos (-n) d else flScaledPos n d

/-- Double multiplication (operands and result scaled by `2 ^ 60`): the exact
product, correctly rounded. -/
def fmulS (x y : ℤ) : ℤ := flScaled (x * y) (2 ^ 120)

/-- Double addition (operands and result scaled by `2 ^ 60`): the exact sum,
correctly rounded. -/
def faddS (x y : ℤ) : ℤ := flScaled (x + y) (2 ^ 60)

/-! ## `ScoreResult` (models/schemas.py, lines 7-49) -/

/-- Multi-criteria scoring result; pydantic constrains every field to
`[1, 10]`, which theorems carry as hypotheses where needed. -/
structure ScoreResult where
  clarity : ℤ
  impact : ℤ
  relevance : ℤ
  completeness : ℤ
  ats_score : ℤ
deriving DecidableEq, Repr

/-- The double denoted by the literal `0.20` (scaled by `2 ^ 60`). -/
def w020 : ℤ := flScaled 20 100

/-- The double denoted by the literal `0.25` (scaled by `2 ^ 60`). -/
def w025 : ℤ := flScaled 25 100

/-- The double denoted by the literal `0.15` (scaled by `2 ^ 60`). -/
def w015 : ℤ := flScaled 15 100

/-- The float expression
`clarity*0.20 + impact*0.25 + relevance*0.20 + completeness*0.15 + ats_score*0.20`
evaluated left to right in binary64 arithmetic (scaled by `2 ^ 60`);
`flScaled c 1` is the conversion of the integer score to a double. -/
def ScoreResult.overallFloat (s : ScoreResult) : ℤ :=
  faddS (faddS (faddS (faddS (fmulS (flScaled s.clarity 1) w020)
    (fmulS (flScaled s.impact 1) w025)) (fmulS (flScaled s.relevance 1) w020))
    (fmulS (flScaled s.completeness 1) w015)) (fmulS (flScaled s.ats_score 1) w020)

/-- CPython `round(x, 1)` in tenths (argument scaled by `2 ^ 60`): correct
decimal rounding of the exact value of the double to one fractional digit,
ties to even. -/
def pyRound1Tenths (x : ℤ) : ℤ := rneDiv (x * 10) (2 ^ 60)

/-- `ScoreResult.overall`: `round(weighted sum, 1)`, represented by the exact
rational `tenths / 10` (the double returned by `round` compares to the integer
grade thresholds exactly as this rational does). -/
def ScoreResult.overall (s : ScoreResult) : ℚ :=
  (pyRound1Tenths s.overallFloat : ℚ) / 10

/-- `ScoreResult.grade`: letter grade from `overall` (models/schemas.py). -/
def ScoreResult.grade (s : ScoreResult) : String :=
  if 9 ≤ s.overall then "A+"
  else if 8 ≤ s.overall then "A"
  else if 7 ≤ s.overall then "B"
  else if 6 ≤ s.overall then "C"
  else if 5 ≤ s.overall then "D"
  else "F"

/-! ## JSON values (`json.loads` results) -/

/-- A parsed JSON value. Numbers are represented by the exact rational
denoted by the numeric literal; objects keep the key order of the reply, as
`json.loads` builds an insertion-ordered `dict`. -/
inductive Json where
  | null : Json
  | bool : Bool → Json
  | num : ℚ → Json
  | str : String → Json
  | arr : List Json → Json
  | obj : List (String × Json) → Json

/-- `dict` lookup (keys produced by `json.loads` are distinct). -/
def jlookup (k : String) : List (String × Json) → Option Json
  | [] => none
  | (k', v) :: rest => if k' = k then some v else jlookup k rest

/-! ## `ResumeScorer.score` (core/scorer.py, lines 27-74) -/

/-- Python `int()` truncation toward zero on a rational. -/
def pyTruncQ (q : ℚ) : ℤ := if q < 0 then -⌊-q⌋ else ⌊q⌋

/-- Numeric value of an all-digit character list. -/
def digitsVal (l : List Char) : Option ℕ :=
  if l ≠ [] ∧ l.all Char.isDigit then
    some (l.foldl (fun a c => a * 10 + (c.toNat - 48)) 0)
  else none

/-- Python `int(string)`: optional sign and decimal digits after stripping
whitespace (digit-group underscores are not modelled). -/
def pyIntOfStr (s : List Char) : Option ℤ :=
  match pyStrip s with
  | '+' :: rest => (digitsVal rest).map Int.ofNat
  | '-' :: rest => (digitsVal rest).map (fun n => -(n : ℤ))
  | t => (digitsVal t).map Int.ofNat

/-- Python `int(v)` on a JSON value: floats truncate toward zero, booleans
become 0/1, numeric strings parse; everything else raises (`none`). -/
def pyIntOfJson : Json → Option ℤ
  | .num q => some (pyTruncQ q)
  | .bool b => some (if b then 1 else 0)
  | .str s => pyIntOfStr s.toList
  | _ => none

/-- `clamp_score` body applied after `int(score)`: `max(1, min(10, n))`. -/
def clampScore (n : ℤ) : ℤ := max 1 (min 10 n)

/-- `clamp_score(score_data.get(key, 5))`: a missing key defaults to 5, a
present value is converted by `int` (raising = `none`) and clamped. -/
def fieldScore (fields : List (String × Json)) (k : String) : Option ℤ :=
  match jlookup k fields with
  | none => some 5
  | some v => (pyIntOfJson v).map clampScore

/-- The all-5 neutral fallback `ScoreResult` of the `except` branch. -/
def neutralScores : ScoreResult := ⟨5, 5, 5, 5, 5⟩

/-- Build the `ScoreResult` from a parsed scoring reply; `none` models any
raised exception (non-dict reply or unconvertible field value). -/
def scoreOfJson : Json → Option ScoreResult
  | .obj fields => do
    let c ← fieldScore fields "clarity"
    let i ← fieldScore fields "impact"
    let r ← fieldScore fields "relevance"
    let k ← fieldScore fields "completeness"
    let a ← fieldScore fields "ats_score"
    pure ⟨c, i, r, k, a⟩
  | _ => none

/-- `ResumeScorer.score`: gateway/parse failure or any raised exception in the
`try` block yields the neutral all-5 result. -/
def scorerScore (resp : Except Unit Json) : ScoreResult :=
  match resp with
  | .error _ => neutralScores
  | .ok j => (scoreOfJson j).getD neutralScores

/-- The `score_dict` of `get_improvement_priority`, in declaration order. -/
def scoreItems (s : ScoreResult) : List (String × ℤ) :=
  [("clarity", s.clarity), ("impact", s.impact), ("relevance", s.relevance),
   ("completeness", s.completeness), ("ats_score", s.ats_score)]

/-- The comparison `key=lambda x: x[1]` of the Python `sorted` call. -/
def byScore (x y : String × ℤ) : Prop := x.2 ≤ y.2

instance : DecidableRel byScore := fun x y => inferInstanceAs (Decidable (x.2 ≤ y.2))

/-- `ResumeScorer.get_improvement_priority`: criteria names sorted ascending
by score. Python `sorted` is a stable sort, and `List.insertionSort` with a
total preorder is the stable sort, hence extensionally the same function. -/
def get_improvement_priority (s : ScoreResult) : List String :=
  (List.insertionSort byScore (scoreItems s)).map Prod.fst

/-! ## `ResumeAnalyzer.detect_sections` (core/analyzer.py, lines 30-69) -/

/-- A detected resume section (models/schemas.py `ResumeSection`); the index
fields keep their default 0 on every path modelled here. -/
structure ResumeSection where
  name : String
  content : String
  start_index : ℕ := 0
  end_index : ℕ := 0
deriving DecidableEq, Repr

/-- Python truthiness of a parsed JSON value. -/
def jTruthy : Json → Bool
  | .null => false
  | .bool b => b
  | .num q => q ≠ 0
  | .str s => s ≠ ""
  | .arr xs => !xs.isEmpty
  | .obj fs => !fs.isEmpty

/-- Is the value the literal string `"null"`? -/
def jIsNullStr : Json → Bool
  | .str s => s = "null"
  | _ => false

/-- The section-building loop: one `ResumeSection` per key whose value is
truthy and not `"null"`, in the reply's key order. A truthy non-string value
makes pydantic raise (`none`), which the caller turns into the fallback. -/
def buildSections : List (String × Json) → Option (List ResumeSection)
  | [] => some []
  | (k, v) :: rest =>
    if jTruthy v ∧ ¬ jIsNullStr v then
      match v with
      | .str s => (buildSections rest).map (⟨k, s, 0, 0⟩ :: ·)
      | _ => none
    else buildSections rest

/-- `ResumeAnalyzer.detect_sections`, returning the `sections` it stores:
any failure (gateway error, parse failure, non-dict reply, pydantic
rejection) yields the single `full_resume` section over `resume.raw_text`. -/
def detect_sections (raw_text : String) (resp : Except Unit Json) : List ResumeSection :=
  match resp with
  | .error _ => [⟨"full_resume", raw_text, 0, 0⟩]
  | .ok (.obj fields) =>
    match buildSections fields with
    | some secs => secs
    | none => [⟨"full_resume", raw_text, 0, 0⟩]
  | .ok _ => [⟨"full_resume", raw_text, 0, 0⟩]

/-! ## `ResumeRewriter.rewrite_bullets` (core/rewriter.py, lines 51-87) -/

/-- A single rewrite suggestion (models/schemas.py). -/
structure RewriteSuggestion where
  original : String
  improved : String
  explanation : String
deriving DecidableEq, Repr

/-- `rewrite.get(key, "")` constrained by pydantic to a string: missing keys
default to `""`, non-string values raise (`none`). -/
def getStrField (fields : List (String × Json)) (k : String) : Option String :=
  match jlookup k fields with
  | none => some ""
  | some (.str s) => some s
  | some _ => none

/-- The suggestion-building loop over the `"rewrites"` array; a non-object
item raises (`none`). -/
def buildRewrites : List Json → Option (List RewriteSuggestion)
  | [] => some []
  | .obj f :: rest => do
    let o ← getStrField f "original"
    let i ← getStrField f "improved"
    let e ← getStrField f "explanation"
    let rs ← buildRewrites rest
    pure (⟨o, i, e⟩ :: rs)
  | _ :: _ => none

/-- `ResumeRewriter.rewrite_bullets`, paired with the number of gateway calls
performed: the empty-input guard returns before any call; afterwards exactly
one call happens and every raised exception is converted to `[]`. -/
def rewrite_bullets (bullet_points : List String) (resp : Except Unit Json) :
    List RewriteSuggestion × ℕ :=
  if bullet_points = [] then ([], 0)
  else
    match resp with
    | .error _ => ([], 1)
    | .ok (.obj fields) =>
      match jlookup "rewrites" fields with
      | none => ([], 1)
      | some (.arr items) => ((buildRewrites items).getD [], 1)
      | some _ => ([], 1)
    | .ok _ => ([], 1)

/-! ## `ResumeParser._parse_txt` (core/parser.py, lines 129-148) -/

/-- A byte of the uploaded file. -/
abbrev Byte := Fin 256

/-- Is the byte a UTF-8 continuation byte (`0x80`-`0xBF`)? -/
def isCont (b : Byte) : Bool := 0x80 ≤ b.val ∧ b.val ≤ 0xBF

/-- Strict UTF-8 decoding (`bytes.decode('utf-8')`): rejects overlong forms,
surrogates and code points above `0x10FFFF`, as CPython does. -/
def utf8Decode : List Byte → Option (List Char)
  | [] => some []
  | b :: rest =>
    let n := b.val
    if n < 0x80 then (utf8Decode rest).map (Char.ofNat n :: ·)
    else if n < 0xC2 then none
    else if n < 0xE0 then
      match rest with
      | c1 :: rest' =>
        if isCont c1 then
          (utf8Decode rest').map (Char.ofNat ((n - 0xC0) * 0x40 + (c1.val - 0x80)) :: ·)
        else none
      | _ => none
    else if n < 0xF0 then
      match rest with
      | c1 :: c2 :: rest' =>
        let lo := if n = 0xE0 then 0xA0 else 0x80
        let hi := if n = 0xED then 0x9F else 0xBF
        if lo ≤ c1.val ∧ c1.val ≤ hi ∧ isCont c2 then
          (utf8Decode rest').map
            (Char.ofNat ((n - 0xE0) * 0x1000 + (c1.val - 0x80) * 0x40 + (c2.val - 0x80)) :: ·)
        else none
      | _ => none
    else if n < 0xF5 then
      match rest with
      | c1 :: c2 :: c3 :: rest' =>
        let lo := if n = 0xF0 then 0x90 else 0x80
        let hi := if n = 0xF4 then 0x8F else 0xBF
        if lo ≤ c1.val ∧ c1.val ≤ hi ∧ isCont c2 ∧ isCont c3 then
          (utf8Decode rest').map
            (Char.ofNat ((n - 0xF0) * 0x40000 + (c1.val - 0x80) * 0x1000 +
              (c2.val - 0x80) * 0x40 + (c3.val - 0x80)) :: ·)
        else none
      | _ => none
    else none

/-- One UTF-16 code unit from two bytes in the given endianness. -/
def u16unit (le : Bool) (b1 b2 : Byte) : ℕ :=
  if le then b1.val + 256 * b2.val else b2.val + 256 * b1.val

/-- UTF-16 code-unit decoding: odd byte counts and unpaired surrogates raise,
surrogate pairs combine. -/
def utf16Units (le : Bool) : List Byte → Option (List Char)
  | [] => some []
  | [_] => none
  | b1 :: b2 :: rest =>
    let u := u16unit le b1 b2
    if u < 0xD800 ∨ 0xE000 ≤ u then (utf16Units le rest).map (Char.ofNat u :: ·)
    else if u < 0xDC00 then
      match rest with
      | b3 :: b4 :: rest' =>
        let u2 := u16unit le b3 b4
        if 0xDC00 ≤ u2 ∧ u2 < 0xE000 then
          (utf16Units le rest').map
            (Char.ofNat (0x10000 + (u - 0xD800) * 0x400 + (u2 - 0xDC00)) :: ·)
        else none
      | _ => none
    else none

/-- `bytes.decode('utf-16')`: honour a leading BOM, default to little-endian
(native order) without one. -/
def utf16Decode (bs : List Byte) : Option (List Char) :=
  if bs.take 2 = [(0xFF : Byte), (0xFE : Byte)] then utf16Units true (bs.drop 2)
  else if bs.take 2 = [(0xFE : Byte), (0xFF : Byte)] then utf16Units false (bs.drop 2)
  else utf16Units true bs

/-- `bytes.decode('latin-1')`: every byte is the code point of equal value;
this succeeds on every byte sequence. -/
def latin1Decode (bs : List Byte) : List Char :=
  bs.map (fun b => Char.ofNat b.val)

/-- The cp1252 value of a byte: `0x80`-`0x9F` holds the Windows-1252 specials
with five undefined bytes, everything else maps to itself. -/
def cp1252Char (n : ℕ) : Option ℕ :=
  if n = 0x80 then some 0x20AC
  else if n = 0x82 then some 0x201A
  else if n = 0x83 then some 0x0192
  else if n = 0x84 then some 0x201E
  else if n = 0x85 then some 0x2026
  else if n = 0x86 then some 0x2020
  else if n = 0x87 then some 0x2021
  else if n = 0x88 then some 0x02C6
  else if n = 0x89 then some 0x2030
  else if n = 0x8A then some 0x0160
  else if n = 0x8B then some 0x2039
  else if n = 0x8C then some 0x0152
  else if n = 0x8E then some 0x017D
  else if n = 0x91 then some 0x2018
  else if n = 0x92 then some 0x2019
  else if n = 0x93 then some 0x201C
  else if n = 0x94 then some 0x201D
  else if n = 0x95 then some 0x2022
  else if n = 0x96 then some 0x2013
  else if n = 0x97 then some 0x2014
  else if n = 0x98 then some 0x02DC
  else if n = 0x99 then some 0x2122
  else if n = 0x9A then some 0x0161
  else if n = 0x9B then some 0x203A
  else if n = 0x9C then some 0x0153
  else if n = 0x9E then some 0x017E
  else if n = 0x9F then some 0x0178
  else if n = 0x81 ∨ n = 0x8D ∨ n = 0x8F ∨ n = 0x90 ∨ n = 0x9D then none
  else some n

/-- `bytes.decode('cp1252')`: fails on the five undefined bytes. -/
def cp1252Decode (bs : List Byte) : Option (List Char) :=
  bs.mapM (fun b => (cp1252Char b.val).map Char.ofNat)

/-- `bytes.decode('utf-8', errors='replace')`: invalid sequences become
U+FFFD (one replacement per maximal invalid subpart, approximated by one per
rejected lead byte together with its accepted continuations). -/
def utf8Replace : List Byte → List Char
  | [] => []
  | b :: rest =>
    let n := b.val
    if n < 0x80 then Char.ofNat n :: utf8Replace rest
    else if n < 0xC2 then Char.ofNat 0xFFFD :: utf8Replace rest
    else if n < 0xE0 then
      match rest with
      | c1 :: rest' =>
        if isCont c1 then
          Char.ofNat ((n - 0xC0) * 0x40 + (c1.val - 0x80)) :: utf8Replace rest'
        else Char.ofNat 0xFFFD :: utf8Replace (c1 :: rest')
      | _ => [Char.ofNat 0xFFFD]
    else if n < 0xF0 then
      match rest with
      | c1 :: c2 :: rest' =>
        let lo := if n = 0xE0 then 0xA0 else 0x80
        let hi := if n = 0xED then 0x9F else 0xBF
        if lo ≤ c1.val ∧ c1.val ≤ hi then
          if isCont c2 then
            Char.ofNat ((n - 0xE0) * 0x1000 + (c1.val - 0x80) * 0x40 + (c2.val - 0x80)) ::
              utf8Replace rest'
          else Char.ofNat 0xFFFD :: utf8Replace (c2 :: rest')
        else Char.ofNat 0xFFFD :: utf8Replace (c1 :: c2 :: rest')
      | [c1] =>
        let lo := if n = 0xE0 then 0xA0 else 0x80
        let hi := if n = 0xED then 0x9F else 0xBF
        if lo ≤ c1.val ∧ c1.val ≤ hi then [Char.ofNat 0xFFFD]
        else [Char.ofNat 0xFFFD, Char.ofNat 0xFFFD]
      | [] => [Char.ofNat 0xFFFD]
    else if n < 0xF5 then
      match rest with
      | c1 :: c2 :: c3 :: rest' =>
        let lo := if n = 0xF0 then 0x90 else 0x80
        let hi := if n = 0xF4 then 0x8F else 0xBF
        if lo ≤ c1.val ∧ c1.val ≤ hi then
          if isCont c2 then
            if isCont c3 then
              Char.ofNat ((n - 0xF0) * 0x40000 + (c1.val - 0x80) * 0x1000 +
                (c2.val - 0x80) * 0x40 + (c3.val - 0x80)) :: utf8Replace rest'
            else Char.ofNat 0xFFFD :: utf8Replace (c3 :: rest')
          else Char.ofNat 0xFFFD :: utf8Replace (c2 :: c3 :: rest')
        else Char.ofNat 0xFFFD :: utf8Replace (c1 :: c2 :: c3 :: rest')
      | c1 :: c2 :: [] =>
        let lo := if n = 0xF0 then 0x90 else 0x80
        let hi := if n = 0xF4 then 0x8F else 0xBF
        if lo ≤ c1.val ∧ c1.val ≤ hi then
          if isCont c2 then [Char.ofNat 0xFFFD] else [Char.ofNat 0xFFFD, Char.ofNat 0xFFFD]
        else Char.ofNat 0xFFFD :: utf8Replace (c1 :: c2 :: [])
      | [c1] =>
        let lo := if n = 0xF0 then 0x90 else 0x80
        let hi := if n = 0xF4 then 0x8F else 0xBF
        if lo ≤ c1.val ∧ c1.val ≤ hi then [Char.ofNat 0xFFFD]
        else [Char.ofNat 0xFFFD, Char.ofNat 0xFFFD]
      | [] => [Char.ofNat 0xFFFD]
    else Char.ofNat 0xFFFD :: utf8Replace rest
termination_by bs => bs.length
decreasing_by all_goals (simp; try omega)

/-- The encoding attempts of `_parse_txt`, in source order. -/
def txtEncodings : List (List Byte → Option (List Char)) :=
  [utf8Decode, utf16Decode, fun bs => some (latin1Decode bs), cp1252Decode]

/-- The `for encoding in encodings: try ... except: continue` loop. -/
def tryEncodings : List (List Byte → Option (List Char)) → List Byte → Option (List Char)
  | [], _ => none
  | e :: es, bs =>
    match e bs with
    | some s => some s
    | none => tryEncodings es bs

/-- `ResumeParser._parse_txt`: the encodings loop with the
`errors='replace'` fallback. -/
def parse_txt (bs : List Byte) : List Char :=
  (tryEncodings txtEncodings bs).getD (utf8Replace bs)

/-! ## Spec-side definitions used by the claim statements -/

/-- The scoring reply of spec Scenario B. -/
def scenarioB : Json :=
  .obj [("clarity", .num 12), ("impact", .num (-3)), ("relevance", .num (76 / 10)),
        ("completeness", .num 5), ("ats_score", .num 5)]

/-- Eligibility of one reply entry for a `ResumeSection`: a string value that
is truthy and not the `"null"` marker. -/
def sectionPick (kv : String × Json) : Option ResumeSection :=
  match kv.2 with
  | .str s => if s ≠ "" ∧ s ≠ "null" then some ⟨kv.1, s, 0, 0⟩ else none
  | _ => none

/-- The fixed taxonomy of SECTION_DETECTION_PROMPT, in declared order. -/
def sectionTaxonomy : List String :=
  ["contact", "summary", "experience", "education", "skills", "projects", "other"]

/-- The section list the claim describes: one section per eligible key,
ordered by the taxonomy's declared order (modelled from the spec wording, for
comparison with `detect_sections`). -/
def taxonomyOrderedSections (fields : List (String × Json)) : List ResumeSection :=
  sectionTaxonomy.filterMap (fun k => (jlookup k fields).bind (fun v => sectionPick (k, v)))

/-- `scoreItems` decorated with the declaration position of each criterion. -/
def scoreItemsIdx (s : ScoreResult) : List (String × ℤ × ℕ) :=
  [("clarity", s.clarity, 0), ("impact", s.impact, 1), ("relevance", s.relevance, 2),
   ("completeness", s.completeness, 3), ("ats_score", s.ats_score, 4)]

/-- Ascending score with ties broken by declaration order (the ordering the
claim describes for `get_improvement_priority`). -/
def byScoreThenDecl (x y : String × ℤ × ℕ) : Prop :=
  x.2.1 < y.2.1 ∨ (x.2.1 = y.2.1 ∧ x.2.2 ≤ y.2.2)

instance : DecidableRel byScoreThenDecl :=
  fun x y => inferInstanceAs (Decidable (x.2.1 < y.2.1 ∨ (x.2.1 = y.2.1 ∧ x.2.2 ≤ y.2.2)))

instance : IsTotal (String × ℤ) byScore :=
  ⟨fun x y => le_total x.2 y.2⟩

instance : IsTrans (String × ℤ) byScore :=
  ⟨fun _ _ _ h1 h2 => le_trans h1 h2⟩

instance : IsTotal (String × ℤ × ℕ) byScoreThenDecl := by
  constructor
  intro x y
  rcases lt_trichotomy x.2.1 y.2.1 with h | h | h
  · exact Or.inl (Or.inl h)
  · rcases le_total x.2.2 y.2.2 with h2 | h2
    · exact Or.inl (Or.inr ⟨h, h2⟩)
    · exact Or.inr (Or.inr ⟨h.symm, h2⟩)
  · exact Or.inr (Or.inl h)

instance : IsTrans (String × ℤ × ℕ) byScoreThenDecl := by
  constructor
  intro x y z hxy hyz
  rcases hxy with h | ⟨he, hi⟩
  · rcases hyz with h' | ⟨he', _⟩
    · exact Or.inl (h.trans h')
    · exact Or.inl (he' ▸ h)
  · rcases hyz with h' | ⟨he', hi'⟩
    · exact Or.inl (he ▸ h')
    · exact Or.inr ⟨he.trans he', hi.trans hi'⟩

/-- Score of a criterion name, read back from `scoreItems`. -/
def critScore (s : ScoreResult) (n : String) : ℤ :=
  (((scoreItems s).lookup n).getD 0)

/-- Forget the declaration index of a decorated score item. -/
def dropIdx (t : String × ℤ × ℕ) : String × ℤ := (t.1, t.2.1)

/-- Adjacency constraint on doubled spaces: no two consecutive spaces. -/
def noDSRel (c d : Char) : Prop := ¬(c = ' ' ∧ d = ' ')

/-- Adjacent-pair invariant of cleaned text: no two consecutive spaces, and
next to a newline only newlines or non-whitespace. -/
def okPair (c d : Char) : Prop :=
  ¬(c = ' ' ∧ d = ' ') ∧
  (c = '\n' → d = '\n' ∨ pyIsSpace d = false) ∧
  (d = '\n' → c = '\n' ∨ pyIsSpace c = false)

/-- The invariant enjoyed by every `clean_text` output: the pair invariant
along the text, and non-whitespace at both ends. -/
def Tidy (s : List Char) : Prop :=
  List.Chain' okPair s ∧
  (∀ c ∈ s.head?, pyIsSpace c = false) ∧
  (∀ c ∈ s.getLast?, pyIsSpace c = false)

/-- No three consecutive newlines anywhere. -/
def NoTriple (s : List Char) : Prop := ¬ (['\n', '\n', '\n'] <:+: s)

/-! ## Theorems -/

/-- Helper: the neutral result rounds to 50 tenths. -/
theorem neutral_tenths : pyRound1Tenths neutralScores.overallFloat = 50 := by decide

/-- Helper: the neutral result evaluates to overall 5.0. -/
theorem neutral_overall : neutralScores.overall = 5 := by
  rw [ScoreResult.overall, neutral_tenths]
  norm_num

/-- Helper: the neutral result grades as D. -/
theorem neutral_grade : neutralScores.grade = "D" := by
  rw [ScoreResult.grade, neutral_overall]
  norm_num

/-- Helper: `int(9)` is 9. -/
theorem truncQ_9 : pyTruncQ 9 = 9 := by
  rw [pyTruncQ, if_neg (by norm_num : ¬((9 : ℚ) < 0)), Int.floor_eq_iff]; norm_num

/-- Helper: evaluation of `score` on the reply `{"clarity": 9}`, whose other
four fields are missing. -/
theorem partial_reply_eval :
    scorerScore (Except.ok (Json.obj [("clarity", Json.num 9)])) = ⟨9, 5, 5, 5, 5⟩ := by
  show (scoreOfJson (Json.obj [("clarity", Json.num 9)])).getD neutralScores = _
  rw [scoreOfJson]
  simp only [fieldScore, jlookup, if_pos rfl,
    if_neg (by decide : ¬"clarity" = "impact"),
    if_neg (by decide : ¬"clarity" = "relevance"),
    if_neg (by decide : ¬"clarity" = "completeness"),
    if_neg (by decide : ¬"clarity" = "ats_score")]
  simp [pyIntOfJson, truncQ_9, clampScore]

/-- C5 fails as stated: "missing fields" is not a failure mode that yields
the all-5 neutral result — for the reply `{"clarity": 9}`, whose other four
fields are missing, `ResumeScorer.score` returns `ScoreResult(9, 5, 5, 5, 5)`
(`score_data.get(key, 5)` defaults each absent field to 5 individually), not
the neutral result the claim asserts. -/
theorem scorer_fail_soft_counterexample :
    scorerScore (Except.ok (Json.obj [("clarity", Json.num 9)])) = ⟨9, 5, 5, 5, 5⟩ ∧
    scorerScore (Except.ok (Json.obj [("clarity", Json.num 9)])) ≠ neutralScores := by
  refine ⟨partial_reply_eval, ?_⟩
  rw [partial_reply_eval]
  decide

/-- C5 (amended): `ResumeScorer.score` never propagates an exception — a
raised gateway error / JSON parse failure (`Except.error`) and any exception
while reading the parsed reply (`scoreOfJson _ = none`) both yield the all-5
neutral `ScoreResult`, whose derived overall is 5.0 and grade is D.  Missing
fields, however, are not a failure path: `score_data.get(key, 5)` defaults
each absent field to 5 individually while present fields keep their clamped
values, so only a reply missing all five fields (such as the empty object)
yields the neutral result. -/
theorem scorer_fail_soft :
    scorerScore (Except.error ()) = neutralScores ∧
    (∀ j : Json, scoreOfJson j = none → scorerScore (Except.ok j) = neutralScores) ∧
    (∀ fields : List (String × Json), ∀ k : String,
      jlookup k fields = none → fieldScore fields k = some 5) ∧
    scorerScore (Except.ok (Json.obj [])) = neutralScores ∧
    neutralScores = ⟨5, 5, 5, 5, 5⟩ ∧
    neutralScores.overall = 5 ∧
    neutralScores.grade = "D" := by
  refine ⟨rfl, ?_, ?_, rfl, rfl, neutral_overall, neutral_grade⟩
  · intro j h
    simp [scorerScore, h]
  · intro fields k h
    simp [fieldScore, h]

/-- Witness for C5 at concrete inputs: a JSON array cannot be read as a
scoring object, and a key absent from the reply defaults to 5. -/
theorem scorer_fail_soft_witness :
    scorerScore (Except.ok (Json.arr [])) = neutralScores ∧
    fieldScore [("clarity", Json.num 9)] "impact" = some 5 :=
  ⟨scorer_fail_soft.2.1 (Json.arr []) rfl,
   scorer_fail_soft.2.2.1 [("clarity", Json.num 9)] "impact" rfl⟩

/-- C7: on every failure of section detection, `detect_sections` stores the
single section `full_resume` holding the full cleaned input text, so the
result is never empty on the failure path. -/
theorem detect_sections_failure :
    ∀ raw : String,
      detect_sections raw (Except.error ()) = [⟨"full_resume", raw, 0, 0⟩] ∧
      detect_sections raw (Except.error ()) ≠ [] := by
  intro raw
  exact ⟨rfl, by simp [detect_sections]⟩

/-- C8: `rewrite_bullets` on the empty list returns the empty list with zero
gateway calls, and on a gateway/parse failure for any input it returns the
empty list rather than propagating the exception. -/
theorem rewrite_bullets_fail_soft :
    (∀ resp : Except Unit Json, rewrite_bullets [] resp = ([], 0)) ∧
    (∀ bs : List String, (rewrite_bullets bs (Except.error ())).1 = []) := by
  constructor
  · intro resp
    simp [rewrite_bullets]
  · intro bs
    by_cases h : bs = [] <;> simp [rewrite_bullets, h]

/-- C10: `_parse_txt` is total — the encodings loop always succeeds (so the
`errors='replace'` fallback is unreachable) and its value is decided by the
first three encodings alone (so the cp1252 attempt is unreachable), because
the latin-1 attempt succeeds on every byte sequence. -/
theorem parse_txt_total :
    ∀ bs : List Byte,
      tryEncodings txtEncodings bs = some (parse_txt bs) ∧
      parse_txt bs =
        ((utf8Decode bs).orElse (fun _ => utf16Decode bs)).getD (latin1Decode bs) := by
  intro bs
  cases h8 : utf8Decode bs <;> cases h16 : utf16Decode bs <;>
    simp [parse_txt, tryEncodings, txtEncodings, h8, h16, Option.orElse]

/-- Helper: `int(12)` is 12. -/
theorem truncQ_12 : pyTruncQ 12 = 12 := by
  rw [pyTruncQ, if_neg (by norm_num : ¬((12 : ℚ) < 0)), Int.floor_eq_iff]; norm_num

/-- Helper: `int(-3)` is -3. -/
theorem truncQ_neg3 : pyTruncQ (-3) = -3 := by
  rw [pyTruncQ, if_pos (by norm_num : ((-3 : ℚ) < 0))]
  rw [show -(-3 : ℚ) = 3 by norm_num]
  rw [show (3 : ℚ) = ((3 : ℤ) : ℚ) by norm_num, Int.floor_intCast]

/-- Helper: `int(7.6)` truncates to 7. -/
theorem truncQ_76_10 : pyTruncQ (76 / 10) = 7 := by
  rw [pyTruncQ, if_neg (by norm_num : ¬((76 : ℚ) / 10 < 0)), Int.floor_eq_iff]; norm_num

/-- Helper: `int(5)` is 5. -/
theorem truncQ_5 : pyTruncQ 5 = 5 := by
  rw [pyTruncQ, if_neg (by norm_num : ¬((5 : ℚ) < 0)), Int.floor_eq_iff]; norm_num

/-- Helper: evaluation of `score` on the Scenario B reply. -/
theorem scenarioB_eval : scorerScore (Except.ok scenarioB) = ⟨10, 1, 7, 5, 5⟩ := by
  show (scoreOfJson scenarioB).getD neutralScores = _
  rw [scenarioB, scoreOfJson]
  simp only [fieldScore, jlookup, pyIntOfJson, if_pos rfl, if_neg (by decide : ¬"clarity" = "impact"),
    if_neg (by decide : ¬"clarity" = "relevance")]
  simp [fieldScore, jlookup, pyIntOfJson, truncQ_12, truncQ_neg3, truncQ_76_10, truncQ_5,
    clampScore]

/-- C1 fails as stated: for the Scenario B reply the stored result is
`{clarity: 10, impact: 1, relevance: 7, completeness: 5, ats_score: 5}` —
`int()` truncates 7.6 to 7 — not the claimed `{10, 1, 8, 5, 5}`. -/
theorem scorer_clamp_counterexample :
    scorerScore (Except.ok scenarioB) = ⟨10, 1, 7, 5, 5⟩ ∧
    scorerScore (Except.ok scenarioB) ≠ ⟨10, 1, 8, 5, 5⟩ := by
  refine ⟨scenarioB_eval, ?_⟩
  rw [scenarioB_eval]
  decide

/-- C1 (amended): for every numeric value `v` returned for a criterion, the
stored score is `max(1, min(10, int(v)))` with `int` truncating toward zero
(not rounding); on Scenario B this stores `{10, 1, 7, 5, 5}`. -/
theorem scorer_clamp_truncates :
    (∀ c i r k a : ℚ,
      scorerScore (Except.ok (.obj [("clarity", .num c), ("impact", .num i),
          ("relevance", .num r), ("completeness", .num k), ("ats_score", .num a)])) =
        ⟨clampScore (pyTruncQ c), clampScore (pyTruncQ i), clampScore (pyTruncQ r),
         clampScore (pyTruncQ k), clampScore (pyTruncQ a)⟩) ∧
    scorerScore (Except.ok scenarioB) = ⟨10, 1, 7, 5, 5⟩ := by
  refine ⟨?_, scenarioB_eval⟩
  intro c i r k a
  rfl

/-- Helper: under the claim's premise (every value a string or the JSON
null), the section-building loop succeeds and picks exactly the eligible
entries in reply order. -/
theorem buildSections_eq :
    ∀ fields : List (String × Json),
      (∀ kv ∈ fields, kv.2 = Json.null ∨ ∃ s, kv.2 = Json.str s) →
      buildSections fields = some (fields.filterMap sectionPick) := by
  intro fields
  induction fields with
  | nil => intro _; rfl
  | cons kv rest ih =>
    intro h
    have hkv := h kv (List.mem_cons_self _ _)
    have hrest := ih fun x hx => h x (List.mem_cons_of_mem _ hx)
    obtain ⟨k, v⟩ := kv
    rcases hkv with hnull | ⟨s, hstr⟩
    · simp only at hnull
      subst hnull
      simp [buildSections, jTruthy, jIsNullStr, sectionPick, hrest]
    · simp only at hstr
      subst hstr
      by_cases hs1 : s = ""
      · simp [buildSections, jTruthy, jIsNullStr, sectionPick, hrest, hs1]
      · by_cases hs2 : s = "null"
        · simp [buildSections, jTruthy, jIsNullStr, sectionPick, hrest, hs1, hs2]
        · simp [buildSections, jTruthy, jIsNullStr, sectionPick, hrest, hs1, hs2]

/-- C3 fails as stated: a successfully parsed reply listing `summary` before
`contact` produces sections in that reply order, not in the taxonomy's
declared order. -/
theorem detect_sections_order_counterexample :
    detect_sections "R" (Except.ok (Json.obj [("summary", Json.str "S"), ("contact", Json.str "C")])) ≠
      taxonomyOrderedSections [("summary", Json.str "S"), ("contact", Json.str "C")] := by
  decide

/-- C3 (amended): for every successfully parsed reply object whose values are
content strings or the JSON null, `detect_sections` produces exactly one
`Section` per key whose value is a non-empty string other than `"null"`, in
the reply's key order (not the taxonomy's declared order). -/
theorem detect_sections_reply_order :
    ∀ (raw : String) (fields : List (String × Json)),
      (∀ kv ∈ fields, kv.2 = Json.null ∨ ∃ s, kv.2 = Json.str s) →
      detect_sections raw (Except.ok (Json.obj fields)) = fields.filterMap sectionPick := by
  intro raw fields h
  simp [detect_sections, buildSections_eq fields h]

/-- Witness for C3 (amended) at the counterexample reply. -/
theorem detect_sections_reply_order_witness :
    detect_sections "R" (Except.ok (Json.obj [("summary", Json.str "S"), ("contact", Json.str "C")])) =
      [⟨"summary", "S", 0, 0⟩, ⟨"contact", "C", 0, 0⟩] := by
  rw [detect_sections_reply_order "R" _ ?_]
  · decide
  · intro kv hkv
    simp only [List.mem_cons, List.not_mem_nil, or_false] at hkv
    rcases hkv with h | h
    · subst h; exact Or.inr ⟨"S", rfl⟩
    · subst h; exact Or.inr ⟨"C", rfl⟩

/-- Helper: with a zero cap, the first pass adds at most one bullet before
the stop check fires. -/
theorem pass1_len_zero (lines : List (List Char)) :
    ∀ acc : List (List Char), (pass1 0 lines acc).length ≤ acc.length + 1 := by
  induction lines with
  | nil => intro acc; simp [pass1]
  | cons line rest ih =>
    intro acc
    rw [pass1]
    by_cases h : pyStrip line = []
    · simpa [h] using ih acc
    · cases htry : tryPatterns (pyStrip line) with
      | none => simp [h, htry]
      | some b =>
        by_cases hb : 20 < b.length <;> simp [h, htry, hb]

/-- Helper: below the cap, the first pass never exceeds the cap. -/
theorem pass1_len_le (m : ℕ) (lines : List (List Char)) :
    ∀ acc : List (List Char), acc.length < m → (pass1 m lines acc).length ≤ m := by
  induction lines with
  | nil => intro acc hacc; simpa [pass1] using hacc.le
  | cons line rest ih =>
    intro acc hacc
    rw [pass1]
    by_cases h : pyStrip line = []
    · simpa [h] using ih acc hacc
    · have step : ∀ acc' : List (List Char), acc'.length ≤ acc.length + 1 →
          (if m ≤ acc'.length then acc' else pass1 m rest acc').length ≤ m := by
        intro acc' hlen
        by_cases hstop : m ≤ acc'.length
        · simpa [hstop] using le_trans hlen hacc
        · simpa [hstop] using ih acc' (lt_of_not_le hstop)
      cases htry : tryPatterns (pyStrip line) with
      | none => simpa [h, htry] using step acc (by omega)
      | some b =>
        by_cases hb : 20 < b.length
        · simpa [h, htry, hb] using step (acc ++ [b]) (by simp)
        · simpa [h, htry, hb] using step acc (by omega)

/-- Helper: every bullet produced by the first pass that is not carried in
from the accumulator has a stripped capture longer than 20 characters. -/
theorem pass1_mem (m : ℕ) (lines : List (List Char)) :
    ∀ acc b, b ∈ pass1 m lines acc → b ∈ acc ∨ 20 < b.length := by
  induction lines with
  | nil => intro acc b hb; rw [pass1] at hb; exact Or.inl hb
  | cons line rest ih =>
    intro acc b hb
    simp only [pass1] at hb
    have step : ∀ acc' : List (List Char), (∀ x ∈ acc', x ∈ acc ∨ 20 < x.length) →
        b ∈ (if m ≤ acc'.length then acc' else pass1 m rest acc') →
        b ∈ acc ∨ 20 < b.length := by
      intro acc' hsub hmem
      by_cases hstop : m ≤ acc'.length
      · rw [if_pos hstop] at hmem
        exact hsub b hmem
      · rw [if_neg hstop] at hmem
        rcases ih acc' b hmem with h1 | h1
        · exact hsub b h1
        · exact Or.inr h1
    by_cases h : pyStrip line = []
    · rw [if_pos h] at hb
      exact ih acc b hb
    · rw [if_neg h] at hb
      cases htry : tryPatterns (pyStrip line) with
      | none =>
        rw [htry] at hb
        dsimp only at hb
        exact step acc (fun x hx => Or.inl hx) hb
      | some b' =>
        rw [htry] at hb
        dsimp only at hb
        by_cases hlen : 20 < b'.length
        · rw [if_pos hlen] at hb
          refine step (acc ++ [b']) ?_ hb
          intro x hx
          rcases List.mem_append.mp hx with h1 | h1
          · exact Or.inl h1
          · simp only [List.mem_singleton] at h1
            subst h1
            exact Or.inr hlen
        · rw [if_neg hlen] at hb
          exact step acc (fun x hx => Or.inl hx) hb

/-- Helper: with a zero cap, the fallback pass adds at most one bullet before
the stop check fires. -/
theorem pass2_len_zero (lines : List (List Char)) :
    ∀ acc : List (List Char), (pass2 0 lines acc).length ≤ acc.length + 1 := by
  induction lines with
  | nil => intro acc; simp [pass2]
  | cons line rest ih =>
    intro acc
    rw [pass2]
    by_cases hc : (firstWordLower (pyStrip line) ∈ actionVerbs ∨
        rstripEd (firstWordLower (pyStrip line)) ∈ actionVerbs) ∧ 25 < (pyStrip line).length
    · simp [hc]
    · simp [hc]

/-- Helper: below the cap, the fallback pass never exceeds the cap. -/
theorem pass2_len_le (m : ℕ) (lines : List (List Char)) :
    ∀ acc : List (List Char), acc.length < m → (pass2 m lines acc).length ≤ m := by
  induction lines with
  | nil => intro acc hacc; simpa [pass2] using hacc.le
  | cons line rest ih =>
    intro acc hacc
    rw [pass2]
    have step : ∀ acc' : List (List Char), acc'.length ≤ acc.length + 1 →
        (if m ≤ acc'.length then acc' else pass2 m rest acc').length ≤ m := by
      intro acc' hlen
      by_cases hstop : m ≤ acc'.length
      · simpa [hstop] using le_trans hlen hacc
      · simpa [hstop] using ih acc' (lt_of_not_le hstop)
    by_cases hc : (firstWordLower (pyStrip line) ∈ actionVerbs ∨
        rstripEd (firstWordLower (pyStrip line)) ∈ actionVerbs) ∧ 25 < (pyStrip line).length
    · simpa [hc] using step (acc ++ [pyStrip line]) (by simp)
    · simpa [hc] using step acc (by omega)

/-- Helper: every bullet produced by the fallback pass that is not carried in
from the accumulator is a stripped line longer than 25 characters. -/
theorem pass2_mem (m : ℕ) (lines : List (List Char)) :
    ∀ acc b, b ∈ pass2 m lines acc → b ∈ acc ∨ 25 < b.length := by
  induction lines with
  | nil => intro acc b hb; rw [pass2] at hb; exact Or.inl hb
  | cons line rest ih =>
    intro acc b hb
    simp only [pass2] at hb
    have step : ∀ acc' : List (List Char), (∀ x ∈ acc', x ∈ acc ∨ 25 < x.length) →
        b ∈ (if m ≤ acc'.length then acc' else pass2 m rest acc') →
        b ∈ acc ∨ 25 < b.length := by
      intro acc' hsub hmem
      by_cases hstop : m ≤ acc'.length
      · rw [if_pos hstop] at hmem
        exact hsub b hmem
      · rw [if_neg hstop] at hmem
        rcases ih acc' b hmem with h1 | h1
        · exact hsub b h1
        · exact Or.inr h1
    by_cases hc : (firstWordLower (pyStrip line) ∈ actionVerbs ∨
        rstripEd (firstWordLower (pyStrip line)) ∈ actionVerbs) ∧ 25 < (pyStrip line).length
    · rw [if_pos hc] at hb
      refine step (acc ++ [pyStrip line]) ?_ hb
      intro x hx
      rcases List.mem_append.mp hx with h1 | h1
      · exact Or.inl h1
      · simp only [List.mem_singleton] at h1
        subst h1
        exact Or.inr hc.2
    · rw [if_neg hc] at hb
      exact step acc (fun x hx => Or.inl hx) hb

/-- C6 fails as stated: with `max_bullets = 0` the fallback pass appends a
qualifying line before the stop check runs, so the result exceeds the cap. -/
theorem extract_bullets_cap_counterexample :
    ¬ ((extract_bullet_points ("Led a team of five engineers to success".toList) 0).length ≤ 0) := by
  decide

/-- C6 (amended): `extract_bullet_points` returns at most
`max(maxBullets, 1)` items — at most `maxBullets` whenever `maxBullets ≥ 1`,
while `maxBullets = 0` can still yield one item; every returned item exceeds
20 characters; when pass 1 found something the result is exactly the pass 1
result (pass 2 does not run); when pass 1 found nothing the result is the
pass 2 result, every item a stripped line longer than 25 characters. -/
theorem extract_bullets_bounds :
    ∀ (text : List Char) (m : ℕ),
      (extract_bullet_points text m).length ≤ max m 1 ∧
      (1 ≤ m → (extract_bullet_points text m).length ≤ m) ∧
      (∀ b ∈ extract_bullet_points text m, 20 < b.length) ∧
      (pass1 m (splitNl text) [] ≠ [] →
        extract_bullet_points text m = pass1 m (splitNl text) []) ∧
      (pass1 m (splitNl text) [] = [] →
        extract_bullet_points text m = pass2 m (splitNl text) [] ∧
        ∀ b ∈ extract_bullet_points text m, 25 < b.length) := by
  intro text m
  have hmem : ∀ b ∈ extract_bullet_points text m, 20 < b.length := by
    intro b hb
    rw [extract_bullet_points] at hb
    by_cases h1 : pass1 m (splitNl text) [] = []
    · rw [if_pos h1] at hb
      rcases pass2_mem m (splitNl text) [] b hb with h | h
      · cases h
      · omega
    · rw [if_neg h1] at hb
      rcases pass1_mem m (splitNl text) [] b hb with h | h
      · cases h
      · exact h
  have hlen : (extract_bullet_points text m).length ≤ max m 1 := by
    rw [extract_bullet_points]
    rcases Nat.eq_zero_or_pos m with hm | hm
    · subst hm
      by_cases h1 : pass1 0 (splitNl text) [] = []
      · rw [if_pos h1]
        simpa using pass2_len_zero (splitNl text) []
      · rw [if_neg h1]
        simpa using pass1_len_zero (splitNl text) []
    · have hmax : max m 1 = m := Nat.max_eq_left hm
      rw [hmax]
      by_cases h1 : pass1 m (splitNl text) [] = []
      · rw [if_pos h1]
        exact pass2_len_le m (splitNl text) [] (by simpa using hm)
      · rw [if_neg h1]
        exact pass1_len_le m (splitNl text) [] (by simpa using hm)
  refine ⟨hlen, ?_, hmem, ?_, ?_⟩
  · intro hm
    have := hlen
    rwa [Nat.max_eq_left hm] at this
  · intro h1
    rw [extract_bullet_points, if_neg h1]
  · intro h1
    constructor
    · rw [extract_bullet_points, if_pos h1]
    · intro b hb
      rw [extract_bullet_points, if_pos h1] at hb
      rcases pass2_mem m (splitNl text) [] b hb with h | h
      · cases h
      · exact h

/-- Witness for C6 (amended) on the Scenario A text with the default cap. -/
theorem extract_bullets_bounds_witness :
    (extract_bullet_points
      ("- Led a team of 5 engineers to deliver project X\n- helped with stuff".toList) 10).length ≤ 10 ∧
    extract_bullet_points
        ("- Led a team of 5 engineers to deliver project X\n- helped with stuff".toList) 10 =
      pass1 10 (splitNl ("- Led a team of 5 engineers to deliver project X\n- helped with stuff".toList)) [] :=
  ⟨(extract_bullets_bounds _ 10).2.1 (by decide),
   (extract_bullets_bounds _ 10).2.2.2.1 (by decide)⟩

/-- Helper: `orderedInsert` commutes with a projection that reflects the
order relation for the inserted element against every list element. -/
theorem map_orderedInsert_of_iff {α β : Type} (f : α → β) (r : α → α → Prop)
    (s : β → β → Prop) [DecidableRel r] [DecidableRel s] (x : α) :
    ∀ l : List α, (∀ a ∈ l, r x a ↔ s (f x) (f a)) →
      (List.orderedInsert r x l).map f = List.orderedInsert s (f x) (l.map f) := by
  intro l
  induction l with
  | nil => intro _; rfl
  | cons y ys ih =>
    intro h
    have hy := h y (List.mem_cons_self _ _)
    simp only [List.orderedInsert, List.map]
    by_cases hr : r x y
    · rw [if_pos hr, if_pos (hy.mp hr)]
      simp
    · rw [if_neg hr, if_neg (fun hs => hr (hy.mpr hs))]
      rw [List.map, ih (fun a ha => h a (List.mem_cons_of_mem _ ha))]

/-- Helper: on a list whose declaration indices strictly increase, the stable
sort by score alone coincides (after dropping the indices) with the sort by
score then declaration index. -/
theorem stable_sort_eq_lex :
    ∀ l : List (String × ℤ × ℕ), List.Pairwise (fun a b => a.2.2 < b.2.2) l →
      (List.insertionSort byScoreThenDecl l).map dropIdx =
        List.insertionSort byScore (l.map dropIdx) := by
  intro l
  induction l with
  | nil => intro _; rfl
  | cons x xs ih =>
    intro hp
    rcases List.pairwise_cons.mp hp with ⟨hx, htail⟩
    simp only [List.insertionSort, List.map]
    rw [map_orderedInsert_of_iff dropIdx byScoreThenDecl byScore x _ ?_, ih htail]
    intro a ha
    have hidx : x.2.2 < a.2.2 := hx a (by rwa [List.mem_insertionSort] at ha)
    constructor
    · intro hlex
      rcases hlex with hlt | ⟨heq, _⟩
      · exact le_of_lt hlt
      · exact le_of_eq heq
    · intro hle
      rcases lt_or_eq_of_le hle with hlt | heq
      · exact Or.inl hlt
      · exact Or.inr ⟨heq, le_of_lt hidx⟩

/-- C9: for every `ScoreResult`, `get_improvement_priority` returns a
permutation of the five criterion names, ascending in their scores, equal to
the arrangement ordered by score with ties broken by the declaration order
(clarity, impact, relevance, completeness, ats_score). -/
theorem priority_sorted_stable :
    ∀ s : ScoreResult,
      (get_improvement_priority s).Perm
        ["clarity", "impact", "relevance", "completeness", "ats_score"] ∧
      List.Sorted (fun a b : ℤ => a ≤ b) ((get_improvement_priority s).map (critScore s)) ∧
      get_improvement_priority s =
        (List.insertionSort byScoreThenDecl (scoreItemsIdx s)).map (fun t => t.1) := by
  intro s
  have heq : get_improvement_priority s =
      (List.insertionSort byScoreThenDecl (scoreItemsIdx s)).map (fun t => t.1) := by
    have hpair : List.Pairwise (fun a b : String × ℤ × ℕ => a.2.2 < b.2.2) (scoreItemsIdx s) := by
      simp [scoreItemsIdx, List.pairwise_cons]
    have h := stable_sort_eq_lex (scoreItemsIdx s) hpair
    have hdrop : (scoreItemsIdx s).map dropIdx = scoreItems s := rfl
    rw [hdrop] at h
    rw [get_improvement_priority, ← h, List.map_map]
    rfl
  refine ⟨?_, ?_, heq⟩
  · have hp := (List.perm_insertionSort byScore (scoreItems s)).map Prod.fst
    exact hp
  · have hs := List.sorted_insertionSort byScore (scoreItems s)
    rw [get_improvement_priority, List.map_map]
    have hcrit : ∀ p ∈ List.insertionSort byScore (scoreItems s),
        (critScore s ∘ Prod.fst) p = p.2 := by
      intro p hp
      rw [List.mem_insertionSort] at hp
      simp only [scoreItems, List.mem_cons, List.not_mem_nil, or_false] at hp
      rcases hp with h | h | h | h | h
      · rw [h]; rfl
      · rw [h]; rfl
      · rw [h]; rfl
      · rw [h]; rfl
      · rw [h]; rfl
    rw [List.map_congr_left hcrit]
    exact List.Pairwise.map Prod.snd (fun a b hab => hab) hs

/-- Helper: all-9 scores round to 90 tenths (overall 9.0). -/
theorem tenths_all9 : pyRound1Tenths (ScoreResult.overallFloat ⟨9, 9, 9, 9, 9⟩) = 90 := by
  decide

/-- Helper: scores (10, 8, 9, 9, 9) round to 89 tenths (overall 8.9). -/
theorem tenths_89 : pyRound1Tenths (ScoreResult.overallFloat ⟨10, 8, 9, 9, 9⟩) = 89 := by
  decide

/-- Helper: all-9 scores have overall exactly 9.0. -/
theorem overall_all9 : (ScoreResult.mk 9 9 9 9 9).overall = 9 := by
  rw [ScoreResult.overall, tenths_all9]
  norm_num

/-- Helper: scores (10, 8, 9, 9, 9) have overall exactly 8.9. -/
theorem overall_89 : (ScoreResult.mk 10 8 9 9 9).overall = 89 / 10 := by
  rw [ScoreResult.overall, tenths_89]
  norm_num

/-- Helper: overall 9.0 grades as A+. -/
theorem grade_all9 : (ScoreResult.mk 9 9 9 9 9).grade = "A+" := by
  rw [ScoreResult.grade, overall_all9]
  norm_num

/-- Helper: overall 8.9 grades as A. -/
theorem grade_89 : (ScoreResult.mk 10 8 9 9 9).grade = "A" := by
  rw [ScoreResult.grade, overall_89]
  norm_num

/-- Helper: the grade if-chain realises the closed-above thresholds. -/
theorem grade_iff_chain :
    ∀ t : ScoreResult,
      (t.grade = "A+" ↔ 9 ≤ t.overall) ∧
      (t.grade = "A" ↔ 8 ≤ t.overall ∧ t.overall < 9) ∧
      (t.grade = "B" ↔ 7 ≤ t.overall ∧ t.overall < 8) ∧
      (t.grade = "C" ↔ 6 ≤ t.overall ∧ t.overall < 7) ∧
      (t.grade = "D" ↔ 5 ≤ t.overall ∧ t.overall < 6) ∧
      (t.grade = "F" ↔ t.overall < 5) := by
  intro t
  rw [ScoreResult.grade]
  generalize t.overall = ov
  split_ifs with h1 h2 h3 h4 h5
  · have n5 : ¬ ov < 5 := by linarith
    have n6 : ¬ ov < 6 := by linarith
    have n7 : ¬ ov < 7 := by linarith
    have n8 : ¬ ov < 8 := by linarith
    have n9 : ¬ ov < 9 := by linarith
    simp [h1, n5, n6, n7, n8, n9]
  · have l9 : ov < 9 := not_le.mp h1
    have n5 : ¬ ov < 5 := by linarith
    have n6 : ¬ ov < 6 := by linarith
    have n7 : ¬ ov < 7 := by linarith
    have n8 : ¬ ov < 8 := by linarith
    simp [h1, h2, l9, n5, n6, n7, n8]
  · have l8 : ov < 8 := not_le.mp h2
    have n5 : ¬ ov < 5 := by linarith
    have n6 : ¬ ov < 6 := by linarith
    have n7 : ¬ ov < 7 := by linarith
    simp [h1, h2, h3, l8, n5, n6, n7]
  · have l7 : ov < 7 := not_le.mp h3
    have n5 : ¬ ov < 5 := by linarith
    have n6 : ¬ ov < 6 := by linarith
    simp [h1, h2, h3, h4, l7, n5, n6]
  · have l6 : ov < 6 := not_le.mp h4
    have n5 : ¬ ov < 5 := by linarith
    simp [h1, h2, h3, h4, h5, l6, n5]
  · have l5 : ov < 5 := not_le.mp h5
    simp [h1, h2, h3, h4, h5, l5]

/-- C4: for every `ScoreResult`, the derived overall is the 1-decimal
rounding of the left-to-right binary64 weighted sum recomputed from the
five stored scores, and the grade is determined by closed-above thresholds
on overall (`>=9` A+, `>=8` A, `>=7` B, `>=6` C, `>=5` D, else F); in
particular overall 9.0 grades A+ and overall 8.9 grades A. -/
theorem overall_grade_spec :
    ∀ s : ScoreResult,
      s.overall = (pyRound1Tenths s.overallFloat : ℚ) / 10 ∧
      (s.grade = "A+" ↔ 9 ≤ s.overall) ∧
      (s.grade = "A" ↔ 8 ≤ s.overall ∧ s.overall < 9) ∧
      (s.grade = "B" ↔ 7 ≤ s.overall ∧ s.overall < 8) ∧
      (s.grade = "C" ↔ 6 ≤ s.overall ∧ s.overall < 7) ∧
      (s.grade = "D" ↔ 5 ≤ s.overall ∧ s.overall < 6) ∧
      (s.grade = "F" ↔ s.overall < 5) ∧
      (ScoreResult.mk 9 9 9 9 9).overall = 9 ∧
      (ScoreResult.mk 9 9 9 9 9).grade = "A+" ∧
      (ScoreResult.mk 10 8 9 9 9).overall = 89 / 10 ∧
      (ScoreResult.mk 10 8 9 9 9).grade = "A" := by
  intro s
  obtain ⟨g1, g2, g3, g4, g5, g6⟩ := grade_iff_chain s
  exact ⟨rfl, g1, g2, g3, g4, g5, g6, overall_all9, grade_all9, overall_89, grade_89⟩

/-- Helper: the head surviving `dropWhile` fails the predicate. -/
theorem head?_dropWhile_not (p : Char → Bool) (l : List Char) :
    ∀ c ∈ (l.dropWhile p).head?, p c = false := by
  induction l with
  | nil => intro c hc; cases hc
  | cons a as ih =>
    intro c hc
    rw [List.dropWhile_cons] at hc
    by_cases h : p a
    · rw [if_pos h] at hc
      exact ih c hc
    · rw [if_neg h] at hc
      simp only [List.head?_cons, Option.mem_def, Option.some.injEq] at hc
      subst hc
      exact Bool.eq_false_iff.mpr h

/-- Helper: a non-empty strip result starts with non-whitespace. -/
theorem pyStrip_head (l : List Char) : ∀ c ∈ (pyStrip l).head?, pyIsSpace c = false := by
  intro c hc
  have hpre : pyStrip l <+: l.dropWhile pyIsSpace := List.rdropWhile_prefix _ _
  obtain ⟨t, ht⟩ := hpre
  apply head?_dropWhile_not pyIsSpace l c
  rw [← ht, List.head?_append]
  rw [Option.mem_def] at hc
  simp [hc]

/-- Helper: a non-empty strip result ends with non-whitespace. -/
theorem pyStrip_getLast (l : List Char) : ∀ c ∈ (pyStrip l).getLast?, pyIsSpace c = false := by
  intro c hc
  obtain ⟨hne, heq⟩ := List.mem_getLast?_eq_getLast hc
  subst heq
  exact Bool.eq_false_iff.mpr (List.rdropWhile_last_not _ _ hne)

/-- Helper: stripping a text whose ends are already non-whitespace is the
identity. -/
theorem pyStrip_eq_self (l : List Char) (hh : ∀ c ∈ l.head?, pyIsSpace c = false)
    (hl : ∀ c ∈ l.getLast?, pyIsSpace c = false) : pyStrip l = l := by
  have h1 : l.dropWhile pyIsSpace = l := by
    cases l with
    | nil => rfl
    | cons a as =>
      rw [List.dropWhile_cons, if_neg]
      have := hh a (by simp)
      simp [this]
  rw [pyStrip, h1, List.rdropWhile_eq_self_iff]
  intro hne
  have hmem : l.getLast hne ∈ l.getLast? := by
    rw [List.getLast?_eq_getLast_of_ne_nil hne]
    simp
  have := hl _ hmem
  simp [this]

/-- Helper: `str.strip` is idempotent. -/
theorem pyStrip_idem (l : List Char) : pyStrip (pyStrip l) = pyStrip l :=
  pyStrip_eq_self _ (pyStrip_head l) (pyStrip_getLast l)

/-- Helper: the strip result is a contiguous infix of the input. -/
theorem pyStrip_within (l : List Char) : pyStrip l <:+: l := by
  have h1 : pyStrip l <+: l.dropWhile pyIsSpace := List.rdropWhile_prefix _ _
  have h2 : l.dropWhile pyIsSpace <:+ l := List.dropWhile_suffix _
  exact h1.isInfix.trans h2.isInfix

/-- Helper: `splitNl` never returns the empty list of chunks. -/
theorem splitNl_ne_nil (s : List Char) : splitNl s ≠ [] := by
  cases s with
  | nil => simp [splitNl]
  | cons c cs =>
    rw [splitNl]
    by_cases h : c = '\n'
    · simp [h]
    · rw [if_neg h]
      cases hcs : splitNl cs with
      | nil => simp [consHead]
      | cons l ls => simp [consHead]

/-- Helper: `joinNl` on at least two chunks interposes one newline. -/
theorem joinNl_cons (l : List Char) (ls : List (List Char)) (h : ls ≠ []) :
    joinNl (l :: ls) = l ++ '\n' :: joinNl ls := by
  cases ls with
  | nil => exact absurd rfl h
  | cons a as => rfl

/-- Helper: either a text has no newline and is a single chunk, or it splits
at its first newline. -/
theorem splitNl_decomp (s : List Char) :
    ('\n' ∉ s ∧ splitNl s = [s]) ∨
    ∃ l1 rest, s = l1 ++ '\n' :: rest ∧ '\n' ∉ l1 ∧ splitNl s = l1 :: splitNl rest := by
  induction s with
  | nil => exact Or.inl ⟨by simp, rfl⟩
  | cons c cs ih =>
    by_cases h : c = '\n'
    · refine Or.inr ⟨[], cs, by simp [h], by simp, ?_⟩
      rw [splitNl, if_pos h]
    · rcases ih with ⟨hnl, heq⟩ | ⟨l1, rest, hs, hnl1, heq⟩
      · refine Or.inl ⟨?_, ?_⟩
        · simp only [List.mem_cons]
          rintro (hc | hc)
          · exact h hc.symm
          · exact hnl hc
        · rw [splitNl, if_neg h, heq]
          rfl
      · refine Or.inr ⟨c :: l1, rest, by rw [hs]; rfl, ?_, ?_⟩
        · simp only [List.mem_cons]
          rintro (hc | hc)
          · exact h hc.symm
          · exact hnl1 hc
        · rw [splitNl, if_neg h, heq]
          rfl

/-- Helper: `collapseSp` is the identity on lists shorter than two. -/
theorem collapseSp_short (l : List Char)
    (h : ∀ (c1 c2 : Char) (rest : List Char), l = c1 :: c2 :: rest → False) :
    collapseSp l = l := by
  cases l with
  | nil => rfl
  | cons a as =>
    cases as with
    | nil => rfl
    | cons b bs => exact (h a b bs rfl).elim

/-- Helper: `collapseNL` is the identity on lists shorter than three. -/
theorem collapseNL_short (l : List Char)
    (h : ∀ (c1 c2 c3 : Char) (rest : List Char), l = c1 :: c2 :: c3 :: rest → False) :
    collapseNL l = l := by
  cases l with
  | nil => rfl
  | cons a as =>
    cases as with
    | nil => rfl
    | cons b bs =>
      cases bs with
      | nil => rfl
      | cons c cs => exact (h a b c cs rfl).elim

/-- Helper: collapsing space runs keeps the first character. -/
theorem collapseSp_head? (s : List Char) : (collapseSp s).head? = s.head? := by
  induction s using collapseSp.induct with
  | case1 c1 c2 rest h ih =>
    rw [collapseSp, if_pos h, ih]
    simp [h.1, h.2]
  | case2 c1 c2 rest h ih =>
    rw [collapseSp, if_neg h]
    simp
  | case3 l h => rw [collapseSp_short l h]

/-- Helper: after collapsing space runs, no two spaces are adjacent. -/
theorem collapseSp_noDS (s : List Char) : List.Chain' noDSRel (collapseSp s) := by
  induction s using collapseSp.induct with
  | case1 c1 c2 rest h ih =>
    rw [collapseSp, if_pos h]
    exact ih
  | case2 c1 c2 rest h ih =>
    rw [collapseSp, if_neg h]
    rw [List.chain'_cons']
    refine ⟨?_, ih⟩
    intro y hy
    rw [collapseSp_head?] at hy
    simp only [List.head?_cons, Option.mem_def, Option.some.injEq] at hy
    subst hy
    exact h
  | case3 l h =>
    rw [collapseSp_short l h]
    cases l with
    | nil => simp
    | cons a as =>
      cases as with
      | nil => simp
      | cons b bs => exact (h a b bs rfl).elim

/-- Helper: a text without adjacent spaces is unchanged by the space
collapse. -/
theorem collapseSp_eq_self (s : List Char) (hch : List.Chain' noDSRel s) :
    collapseSp s = s := by
  induction s using collapseSp.induct with
  | case1 c1 c2 rest h ih =>
    rcases List.chain'_cons'.mp hch with ⟨hpair, _⟩
    exact absurd h (hpair c2 (by simp))
  | case2 c1 c2 rest h ih =>
    rw [collapseSp, if_neg h, ih hch.tail]
  | case3 l h => exact collapseSp_short l h

/-- Helper: collapsing newline runs keeps the first character. -/
theorem collapseNL_head? (s : List Char) : (collapseNL s).head? = s.head? := by
  induction s using collapseNL.induct with
  | case1 c1 c2 c3 rest h ih =>
    rw [collapseNL, if_pos h, ih]
    simp [h.1, h.2.1]
  | case2 c1 c2 c3 rest h ih =>
    rw [collapseNL, if_neg h]
    simp
  | case3 l h => rw [collapseNL_short l h]

/-- Helper: collapsing newline runs keeps the last character. -/
theorem collapseNL_getLast? (s : List Char) : (collapseNL s).getLast? = s.getLast? := by
  induction s using collapseNL.induct with
  | case1 c1 c2 c3 rest h ih =>
    rw [collapseNL, if_pos h, ih]
    simp only [List.getLast?_cons_cons]
  | case2 c1 c2 c3 rest h ih =>
    rw [collapseNL, if_neg h]
    have hne : collapseNL (c2 :: c3 :: rest) ≠ [] := by
      intro hnil
      have := collapseNL_head? (c2 :: c3 :: rest)
      rw [hnil] at this
      simp at this
    cases hw : collapseNL (c2 :: c3 :: rest) with
    | nil => exact absurd hw hne
    | cons x t =>
      rw [List.getLast?_cons_cons, ← hw, ih]
      simp only [List.getLast?_cons_cons]
  | case3 l h => rw [collapseNL_short l h]

/-- Helper: the first two characters survive the newline collapse. -/
theorem collapseNL_take2 (l : List Char) :
    ∀ a b : Char, (collapseNL (a :: b :: l)).take 2 = [a, b] := by
  induction l with
  | nil => intro a b; rfl
  | cons c l' ih =>
    intro a b
    by_cases h : a = '\n' ∧ b = '\n' ∧ c = '\n'
    · rw [collapseNL, if_pos h]
      rw [ih b c, h.2.1, h.2.2, h.1]
    · rw [collapseNL, if_neg h]
      have hhd := collapseNL_head? (b :: c :: l')
      cases hw : collapseNL (b :: c :: l') with
      | nil => rw [hw] at hhd; simp at hhd
      | cons x t =>
        rw [hw] at hhd
        simp only [List.head?_cons, Option.some.injEq] at hhd
        subst hhd
        simp

/-- Helper: a list of length at most two has no newline triple. -/
theorem noTriple_short (s : List Char) (h : s.length ≤ 2) : NoTriple s := by
  intro hinf
  have := hinf.length_le
  simp at this
  omega

/-- Helper: prepending a character preserves the absence of newline triples
unless it completes one at the front. -/
theorem noTriple_cons (c : Char) (w : List Char) (hw : NoTriple w)
    (hc : ¬(c = '\n' ∧ w.take 2 = ['\n', '\n'])) : NoTriple (c :: w) := by
  intro hinf
  rcases List.infix_cons_iff.mp hinf with hpre | hinf'
  · obtain ⟨t, ht⟩ := hpre
    have hc1 : c = '\n' := by
      have := congrArg (List.head?) ht
      simpa using this.symm
    have hw2 : w = '\n' :: '\n' :: t := by
      have := congrArg List.tail ht
      simpa using this.symm
    exact hc ⟨hc1, by rw [hw2]; rfl⟩
  · exact hw hinf'

/-- Helper: after collapsing, no three newlines are adjacent. -/
theorem collapseNL_noTriple (s : List Char) : NoTriple (collapseNL s) := by
  induction s using collapseNL.induct with
  | case1 c1 c2 c3 rest h ih =>
    rw [collapseNL, if_pos h]
    exact ih
  | case2 c1 c2 c3 rest h ih =>
    rw [collapseNL, if_neg h]
    refine noTriple_cons c1 _ ih ?_
    rintro ⟨hc1, htake⟩
    rw [collapseNL_take2] at htake
    simp only [List.cons.injEq] at htake
    exact h ⟨hc1, htake.1, htake.2.1⟩
  | case3 l h =>
    rw [collapseNL_short l h]
    apply noTriple_short
    cases l with
    | nil => simp
    | cons a as =>
      cases as with
      | nil => simp
      | cons b bs =>
        cases bs with
        | nil => simp
        | cons c cs => exact (h a b c cs rfl).elim

/-- Helper: a text without newline triples is unchanged by the newline
collapse. -/
theorem collapseNL_eq_self (s : List Char) (hs : NoTriple s) : collapseNL s = s := by
  induction s using collapseNL.induct with
  | case1 c1 c2 c3 rest h ih =>
    exfalso
    apply hs
    rw [h.1, h.2.1, h.2.2]
    exact ⟨[], rest, rfl⟩
  | case2 c1 c2 c3 rest h ih =>
    rw [collapseNL, if_neg h, ih]
    intro hinf
    exact hs (hinf.trans ⟨[c1], [], by simp⟩)
  | case3 l h => exact collapseNL_short l h

/-- Helper: the newline collapse preserves the pair invariant. -/
theorem collapseNL_chain (s : List Char) (hch : List.Chain' okPair s) :
    List.Chain' okPair (collapseNL s) := by
  induction s using collapseNL.induct with
  | case1 c1 c2 c3 rest h ih =>
    rw [collapseNL, if_pos h]
    exact ih hch.tail
  | case2 c1 c2 c3 rest h ih =>
    rw [collapseNL, if_neg h]
    rw [List.chain'_cons']
    refine ⟨?_, ih hch.tail⟩
    intro y hy
    rw [collapseNL_head?] at hy
    simp only [List.head?_cons, Option.mem_def, Option.some.injEq] at hy
    subst hy
    exact (List.chain'_cons'.mp hch).1 c2 (by simp)
  | case3 l h =>
    rw [collapseNL_short l h]
    exact hch

/-- Helper: `joinNl` of one chunk is that chunk. -/
theorem joinNl_singleton (l : List Char) : joinNl [l] = l := rfl

/-- Helper: on newline-free text the pair invariant follows from the absence
of double spaces. -/
theorem chainOk_of_noDS (l : List Char) (hnl : '\n' ∉ l)
    (hch : List.Chain' noDSRel l) : List.Chain' okPair l := by
  induction l with
  | nil => simp
  | cons a as ih =>
    rw [List.chain'_cons'] at hch ⊢
    refine ⟨?_, ih (fun h => hnl (List.mem_cons_of_mem _ h)) hch.2⟩
    intro y hy
    have hya : y ∈ as := List.mem_of_mem_head? hy
    refine ⟨hch.1 y hy, ?_, ?_⟩
    · intro ha
      exact absurd (ha ▸ List.mem_cons_self a as) hnl
    · intro hyn
      exact absurd (hyn ▸ List.mem_cons_of_mem a hya) hnl

/-- Helper: line-stripped text starts with a newline or non-whitespace. -/
theorem stripLines_head (s : List Char) :
    ∀ c ∈ (stripLines s).head?, c = '\n' ∨ pyIsSpace c = false := by
  intro c hc
  rcases splitNl_decomp s with ⟨hnl, heq⟩ | ⟨l1, rest, hs, hnl1, heq⟩
  · rw [stripLines, heq, List.map_cons, List.map_nil, joinNl_singleton] at hc
    exact Or.inr (pyStrip_head s c hc)
  · rw [stripLines, heq, List.map_cons,
      joinNl_cons _ _ (by simp [List.map_eq_nil_iff]; exact splitNl_ne_nil rest),
      List.head?_append] at hc
    cases hps : (pyStrip l1).head? with
    | none =>
      rw [hps] at hc
      simp only [Option.none_or, List.head?_cons, Option.mem_def, Option.some.injEq] at hc
      exact Or.inl hc.symm
    | some x =>
      rw [hps] at hc
      simp only [Option.or, Option.mem_def, Option.some.injEq] at hc
      subst hc
      exact Or.inr (pyStrip_head l1 x (by rw [hps]; rfl))

/-- Helper (bounded form): under the pair invariant, with compatible ends,
stripping every line is the identity. -/
theorem stripLines_eq_self_aux :
    ∀ n : ℕ, ∀ s : List Char, s.length ≤ n → List.Chain' okPair s →
      (∀ c ∈ s.head?, c = '\n' ∨ pyIsSpace c = false) →
      (∀ c ∈ s.getLast?, c = '\n' ∨ pyIsSpace c = false) →
      stripLines s = s := by
  intro n
  induction n with
  | zero =>
    intro s hlen _ _ _
    have : s = [] := List.length_eq_zero.mp (Nat.le_zero.mp hlen)
    subst this
    rfl
  | succ n ih =>
    intro s hlen hch hh hl
    rcases splitNl_decomp s with ⟨hnl, heq⟩ | ⟨l1, rest, hs, hnl1, heq⟩
    · rw [stripLines, heq, List.map_cons, List.map_nil, joinNl_singleton]
      apply pyStrip_eq_self
      · intro c hc
        rcases hh c hc with h' | h'
        · exact absurd (h' ▸ List.mem_of_mem_head? hc) hnl
        · exact h'
      · intro c hc
        rcases hl c hc with h' | h'
        · obtain ⟨hne, hg⟩ := List.mem_getLast?_eq_getLast hc
          exact absurd (h' ▸ hg ▸ List.getLast_mem hne) hnl
        · exact h'
    · subst hs
      rcases List.chain'_append.mp hch with ⟨ch1, ch2, hbd⟩
      rw [stripLines, heq, List.map_cons,
        joinNl_cons _ _ (by simp [List.map_eq_nil_iff]; exact splitNl_ne_nil rest)]
      have hlen' : rest.length ≤ n := by
        simp [List.length_append] at hlen
        omega
      have hh' : ∀ c ∈ rest.head?, c = '\n' ∨ pyIsSpace c = false := by
        intro c hc
        exact ((List.chain'_cons'.mp ch2).1 c hc).2.1 rfl
      have hl' : ∀ c ∈ rest.getLast?, c = '\n' ∨ pyIsSpace c = false := by
        intro c hc
        cases rest with
        | nil => simp at hc
        | cons r rs =>
          apply hl
          rw [List.getLast?_append_of_ne_nil _ (by simp), List.getLast?_cons_cons]
          exact hc
      have hrest : stripLines rest = rest := ih rest hlen' ch2.tail hh' hl'
      rw [stripLines] at hrest
      rw [hrest]
      have h1 : pyStrip l1 = l1 := by
        apply pyStrip_eq_self
        · intro c hc
          have hcs : c ∈ (l1 ++ '\n' :: rest).head? := by
            cases l1 with
            | nil => simp at hc
            | cons a as =>
              rw [List.cons_append, List.head?_cons]
              simpa using hc
          rcases hh c hcs with h' | h'
          · exact absurd (h' ▸ List.mem_of_mem_head? hc) hnl1
          · exact h'
        · intro c hc
          have hok : okPair c '\n' := hbd c hc '\n' (by simp)
          rcases hok.2.2 rfl with h' | h'
          · obtain ⟨hne, hg⟩ := List.mem_getLast?_eq_getLast hc
            exact absurd (h' ▸ hg ▸ List.getLast_mem hne) hnl1
          · exact h'
      rw [h1]

/-- Helper: under the pair invariant, with compatible ends, stripping every
line is the identity. -/
theorem stripLines_eq_self (s : List Char) (hch : List.Chain' okPair s)
    (hh : ∀ c ∈ s.head?, c = '\n' ∨ pyIsSpace c = false)
    (hl : ∀ c ∈ s.getLast?, c = '\n' ∨ pyIsSpace c = false) :
    stripLines s = s :=
  stripLines_eq_self_aux s.length s le_rfl hch hh hl

/-- Helper (bounded form): stripping every line of space-collapsed text
establishes the pair invariant. -/
theorem stripLines_chain_aux :
    ∀ n : ℕ, ∀ s : List Char, s.length ≤ n → List.Chain' noDSRel s →
      List.Chain' okPair (stripLines s) := by
  intro n
  induction n with
  | zero =>
    intro s hlen _
    have : s = [] := List.length_eq_zero.mp (Nat.le_zero.mp hlen)
    subst this
    simp [stripLines, splitNl, joinNl, pyStrip]
  | succ n ih =>
    intro s hlen hch
    rcases splitNl_decomp s with ⟨hnl, heq⟩ | ⟨l1, rest, hs, hnl1, heq⟩
    · rw [stripLines, heq, List.map_cons, List.map_nil, joinNl_singleton]
      refine chainOk_of_noDS _ (fun h => hnl (List.IsInfix.subset (pyStrip_within s) h)) ?_
      exact List.Chain'.infix hch (pyStrip_within s)
    · subst hs
      rw [stripLines, heq, List.map_cons,
        joinNl_cons _ _ (by simp [List.map_eq_nil_iff]; exact splitNl_ne_nil rest)]
      rw [List.chain'_append]
      have hlen' : rest.length ≤ n := by
        simp [List.length_append] at hlen
        omega
      have hch2 : List.Chain' noDSRel rest :=
        List.Chain'.tail (List.Chain'.suffix hch ⟨l1, rfl⟩)
      refine ⟨?_, ?_, ?_⟩
      · apply chainOk_of_noDS
        · intro h
          exact hnl1 (List.IsInfix.subset (pyStrip_within l1) h)
        · have hch1 : List.Chain' noDSRel l1 := List.Chain'.prefix hch ⟨'\n' :: rest, rfl⟩
          exact List.Chain'.infix hch1 (pyStrip_within l1)
      · rw [List.chain'_cons']
        constructor
        · intro y hy
          have hdisj : y = '\n' ∨ pyIsSpace y = false := stripLines_head rest y hy
          refine ⟨?_, ?_, ?_⟩
          · rintro ⟨h1, _⟩
            exact absurd h1 (by decide)
          · intro _
            exact hdisj
          · intro _
            exact Or.inl rfl
        · exact ih rest hlen' hch2
      · intro x hx y hy
        simp only [List.head?_cons, Option.mem_def, Option.some.injEq] at hy
        subst hy
        have hxs : pyIsSpace x = false := pyStrip_getLast l1 x hx
        refine ⟨?_, ?_, ?_⟩
        · rintro ⟨_, h2⟩
          exact absurd h2 (by decide)
        · intro _
          exact Or.inl rfl
        · intro _
          exact Or.inr hxs

/-- Helper: stripping every line of space-collapsed text establishes the
pair invariant. -/
theorem stripLines_chain (s : List Char) (hch : List.Chain' noDSRel s) :
    List.Chain' okPair (stripLines s) :=
  stripLines_chain_aux s.length s le_rfl hch

/-- Helper: every `clean_text` output satisfies the `Tidy` invariant. -/
theorem clean_text_tidy (x : List Char) : Tidy (clean_text x) := by
  by_cases hx : x = []
  · subst hx
    exact ⟨by simp [clean_text], by simp [clean_text], by simp [clean_text]⟩
  · rw [clean_text, if_neg hx]
    refine ⟨?_, pyStrip_head _, pyStrip_getLast _⟩
    exact List.Chain'.infix (stripLines_chain _ (collapseSp_noDS _)) (pyStrip_within _)

/-- Helper: on `Tidy` text, `clean_text` reduces to the newline collapse
alone — the space collapse, line stripping and outer strip are identities. -/
theorem clean_text_of_tidy (s : List Char) (ht : Tidy s) :
    clean_text s = collapseNL s := by
  obtain ⟨hch, hh, hl⟩ := ht
  by_cases hs : s = []
  · subst hs
    rfl
  · rw [clean_text, if_neg hs]
    have hchN : List.Chain' okPair (collapseNL s) := collapseNL_chain s hch
    have hhN : ∀ c ∈ (collapseNL s).head?, pyIsSpace c = false := by
      intro c hc
      rw [collapseNL_head?] at hc
      exact hh c hc
    have hlN : ∀ c ∈ (collapseNL s).getLast?, pyIsSpace c = false := by
      intro c hc
      rw [collapseNL_getLast?] at hc
      exact hl c hc
    have h1 : collapseSp (collapseNL s) = collapseNL s :=
      collapseSp_eq_self _ (hchN.imp (fun _ _ hab => hab.1))
    rw [h1]
    have h2 : stripLines (collapseNL s) = collapseNL s :=
      stripLines_eq_self _ hchN (fun c hc => Or.inr (hhN c hc))
        (fun c hc => Or.inr (hlN c hc))
    rw [h2]
    exact pyStrip_eq_self _ hhN hlN

/-- Helper: the newline collapse preserves the `Tidy` invariant. -/
theorem tidy_collapseNL (s : List Char) (ht : Tidy s) : Tidy (collapseNL s) := by
  obtain ⟨hch, hh, hl⟩ := ht
  refine ⟨collapseNL_chain s hch, ?_, ?_⟩
  · intro c hc
    rw [collapseNL_head?] at hc
    exact hh c hc
  · intro c hc
    rw [collapseNL_getLast?] at hc
    exact hl c hc

/-- C2 fails as stated: `clean_text` is not idempotent, because stripping
whitespace-only lines can create a fresh run of three newlines that only the
next application collapses. -/
theorem clean_text_not_idempotent :
    clean_text (clean_text ("a \n \n \n a".toList)) ≠ clean_text ("a \n \n \n a".toList) := by
  decide

/-- C2 (amended): one extra application reaches a fixed point — for every
input, applying `clean_text` twice gives text that `clean_text` leaves
unchanged, i.e. `clean ∘ clean` is idempotent even though `clean` is not. -/
theorem clean_text_twice_idempotent :
    ∀ x : List Char,
      clean_text (clean_text (clean_text x)) = clean_text (clean_text x) := by
  intro x
  have hy : Tidy (clean_text x) := clean_text_tidy x
  have h2 : clean_text (clean_text x) = collapseNL (clean_text x) :=
    clean_text_of_tidy _ hy
  have hz : Tidy (collapseNL (clean_text x)) := tidy_collapseNL _ hy
  have h3 : clean_text (collapseNL (clean_text x)) = collapseNL (collapseNL (clean_text x)) :=
    clean_text_of_tidy _ hz
  have h4 : collapseNL (collapseNL (clean_text x)) = collapseNL (clean_text x) :=
    collapseNL_eq_self _ (collapseNL_noTriple _)
  rw [h2, h3, h4]

/-- Witness for C4 at the neutral score: the D band is exactly `[5, 6)`. -/
theorem overall_grade_spec_witness :
    neutralScores.grade = "D" ↔ 5 ≤ neutralScores.overall ∧ neutralScores.overall < 6 :=
  (overall_grade_spec neutralScores).2.2.2.2.2.1
